import Mathlib

/-!
Verification of the fairness-metric engine and the stance-based rerankers of
the `stare` repository (files `src/fare/metric/fairness.py` and
`src/fare/modules/fairness_reranker.py`), via a shallow embedding in Lean.

Conventions of the embedding:
* pandas `DataFrame` rows become records, a per-query ranking becomes a
  `List` of such records in row order;
* Python `float` scores and stance values become `ℚ` (`NaN`, used by pandas
  for a missing `stance_value`, becomes `none` in an `Option ℚ`; every
  comparison `NaN < x`, `NaN > x`, `NaN <= x`, `NaN >= x` is `false` in
  Python, which the `Option` pattern matches reproduce);
* the real-valued rND score, whose discounts use `log2`, lives in `ℝ`
  (`Real.logb 2`);
* Python `dict`s become association lists in insertion order;
* code that raises becomes `Except`-valued code.
-/

/-! ## Data model for the fairness metric (`src/fare/metric/fairness.py`)

A row of the per-query ranking `DataFrame` passed to
`FairnessMeasure.fairness`: the metric reads the `rank` column and the
group column; the score column is carried along untouched. -/

structure RDoc where
  rank : Nat
  group : String
  score : ℚ
deriving DecidableEq

/-- Lookup in a `defaultdict(lambda: 0, counts)`-style mapping: the count of
`g`, defaulting to `0` when `g` is absent. -/
def lookupCount (counts : List (String × Nat)) (g : String) : Nat :=
  match counts.find? (fun p => p.1 == g) with
  | none => 0
  | some p => p.2

/-- `N = sum(group_counts.values())` (fairness.py line 292). -/
def totalCount (counts : List (String × Nat)) : Nat :=
  (counts.map Prod.snd).sum

/-- fairness.py lines 294-296: `if 0 in ranking["rank"].values:
ranking["rank"] += 1` — the repair of zero-indexed ranks. -/
def rndRepair (ranking : List RDoc) : List RDoc :=
  if ranking.any (fun d => d.rank == 0) then
    ranking.map (fun d => { d with rank := d.rank + 1 })
  else ranking

/-- `Series.value_counts()` as used on the prefix's group column
(fairness.py line 303): one `(group, occurrence count)` pair per distinct
group of the list. (pandas orders the pairs by decreasing count; the code
only ever looks a single group up in the result, for which the order of
the pairs is irrelevant, so we do not model the ordering.) -/
def valueCounts (groups : List String) : List (String × Nat) :=
  groups.dedup.map (fun g => (g, groups.count g))

/-- fairness.py line 301: `temp_ranking = ranking[ranking["rank"].isin(range(1, i + 1))]`
— the rows whose rank lies in `1..i`. -/
def rankWindow (ranking : List RDoc) (i : Nat) : List RDoc :=
  ranking.filter (fun d => decide (1 ≤ d.rank) && decide (d.rank ≤ i))

/-- fairness.py lines 303-318: `S_Plus_in_i`, the `value_counts` entry of the
protected group over the rank-`≤ i` prefix, `0` when the group is absent
from the prefix (the `len(...) == 0` check). -/
def sPlusIn (ranking : List RDoc) (pg : String) (i : Nat) : Nat :=
  lookupCount (valueCounts ((rankWindow ranking i).map RDoc.group)) pg

/-- fairness.py lines 322-325: one summand of the rND score,
`(1 / log(i + 1, 2)) * abs(abs(S_Plus_in_i / (i + 1)) - abs(S_plus / N))`.
Note the code divides the prefix count by `i + 1`, not by `i`. -/
noncomputable def rndTerm (sIn : Nat) (i : Nat) (sPlus : Nat) (n : Nat) : ℝ :=
  (1 / Real.logb 2 ((i : ℝ) + 1)) *
    |abs ((sIn : ℝ) / ((i : ℝ) + 1)) - abs ((sPlus : ℝ) / (n : ℝ))|

/-- `_NormalizedDiscountedDifference.fairness` (fairness.py lines 285-329):
after the zero-index repair, iterate over the `rank` column in row order and
sum the per-position terms. -/
noncomputable def rND (ranking : List RDoc) (groupCounts : List (String × Nat))
    (pg : String) : ℝ :=
  let n := totalCount groupCounts
  let r := rndRepair ranking
  (r.map (fun d => rndTerm (sPlusIn r pg d.rank) d.rank
    (lookupCount groupCounts pg) n)).sum

/-- The rND formula as the specification words it (spec section 4.3 and
claim C1): for each distinct rank position `i` present in the ranking,
accumulate `(1/log2(i+1)) * |S_in_i/i − S+/N|` — the prefix count divided
by `i`, not by `i + 1`. Stated over the same zero-index repair. This
definition follows the spec's words and exists to be compared against
`rND`, which is translated from the source. -/
noncomputable def rndSpecFormula (ranking : List RDoc)
    (groupCounts : List (String × Nat)) (pg : String) : ℝ :=
  let n := totalCount groupCounts
  let r := rndRepair ranking
  ((r.map RDoc.rank).dedup.map (fun (i : Nat) =>
    (1 / Real.logb 2 ((i : ℝ) + 1)) *
      |(sPlusIn r pg i : ℝ) / (i : ℝ) -
        (lookupCount groupCounts pg : ℝ) / (n : ℝ)|)).sum

/-- The closed form the code actually computes (the amended claim C1):
sum, over the rank positions as iterated, of
`(1/log2(i+1)) * |S_in_i/(i+1) − S+/N|`, the double absolute values of the
source having been simplified away (both operands are non-negative). -/
noncomputable def rndCodeFormula (ranking : List RDoc)
    (groupCounts : List (String × Nat)) (pg : String) : ℝ :=
  let n := totalCount groupCounts
  let r := rndRepair ranking
  (r.map (fun d =>
    (1 / Real.logb 2 ((d.rank : ℝ) + 1)) *
      |(sPlusIn r pg d.rank : ℝ) / ((d.rank : ℝ) + 1) -
        (lookupCount groupCounts pg : ℝ) / (n : ℝ)|)).sum

/-- Ranking `R0` obtained from `R` by decreasing every rank by one while
keeping order, groups and scores (claim C4). -/
def shiftRanksDown (ranking : List RDoc) : List RDoc :=
  ranking.map (fun d => { d with rank := d.rank - 1 })

/-! Concrete inputs for the metric claims: the worked example of the spec
(judgments `{(Q1,d1,A),(Q1,d2,A),(Q1,d3,B)}`, ranking `[d1,d2,d3]` with
ranks 1,2,3 and groups A,A,B, protected group B), and a one-document
ranking used as a counterexample input. -/

def exRanking : List RDoc := [⟨1, "A", 3⟩, ⟨2, "A", 2⟩, ⟨3, "B", 1⟩]

def exCounts : List (String × Nat) := [("A", 2), ("B", 1)]

def exSingleB : List RDoc := [⟨1, "B", 1⟩]

def exCountsB : List (String × Nat) := [("B", 1)]

/-! ## Protected-group selection and group counting
(`FairnessMeasure._protected_group` and `FairnessMeasure._group_counts`,
fairness.py lines 135-202) -/

/-- One relevance judgment row (`Qrel`): query, document, group label. -/
structure Qrel where
  queryId : String
  docId : String
  group : String
deriving DecidableEq

/-- Python exceptions raised by code paths modeled in this development. -/
inductive PyError
  | nameError (name : String)
  | typeError
deriving DecidableEq

/-- `qrels.groupby(group_col).size().to_dict()` (fairness.py line 139):
the label-to-occurrence-count mapping of the qrels' group column. (pandas
orders the groupby keys; the mapping is only ever used through lookups,
for which the entry order is irrelevant.) -/
def groupSizes (qrels : List Qrel) : List (String × Nat) :=
  valueCounts (qrels.map Qrel.group)

/-- `FairnessMeasure._group_counts` as written (fairness.py lines 135-141):
it computes the sizes dictionary and then evaluates
`defaultdict(lambda: 0, counts)` — but `defaultdict` is never imported in
`src/fare/metric/fairness.py`, so the name lookup raises
`NameError: name 'defaultdict' is not defined` on every call, after the
(discarded) sizes computation. -/
def groupCountsCode (qrels : List Qrel) : Except PyError (List (String × Nat)) :=
  let _counts := groupSizes qrels
  Except.error (PyError.nameError "defaultdict")

/-- `ProtectedGroupStrategy` (fairness.py lines 27-29). -/
inductive ProtectedGroupStrategy
  | minority
  | majority
deriving DecidableEq

/-- The `protected_group` parameter: a strategy enum value or an explicit
group label (fairness.py lines 90-103). -/
inductive ProtectedGroupParam
  | strategy (s : ProtectedGroupStrategy)
  | explicitGroup (g : String)
deriving DecidableEq

/-- The `tie_breaking` parameter: one of the `TieBreakingStrategy` enum
values (fairness.py lines 32-35) or a comma-separated preference list,
already split into its labels (fairness.py lines 105-123). -/
inductive TieBreakingParam
  | random
  | groupAscending
  | groupDescending
  | preference (groups : List String)
deriving DecidableEq

/-- The `ValueError`s that `FairnessMeasure._protected_group` can raise:
an unresolved tie without a configured tie-breaking rule (naming the tied
groups and their shared count, fairness.py lines 167-172), a preference
list that matches none of the tied groups (lines 194-198), and the
`IndexError` of `groups[0][0]` on an empty counts mapping (line 200). -/
inductive SelectionError
  | tie (tieGroups : List String) (count : Nat)
  | preferenceMismatch (pref : List String) (tieGroups : List String)
  | indexError
deriving DecidableEq

/-- fairness.py lines 147-157: the counts items sorted by count, ascending
for `MINORITY` and descending for `MAJORITY`. Python's `sorted` is a
stable sort, and `sorted(..., reverse=True)` is a stable sort under the
flipped comparison, so both directions are `mergeSort` with the
corresponding `≤` test on the counts. -/
def sortedGroups (strat : ProtectedGroupStrategy)
    (counts : List (String × Nat)) : List (String × Nat) :=
  match strat with
  | .minority => counts.mergeSort (fun x y => decide (x.2 ≤ y.2))
  | .majority => counts.mergeSort (fun x y => decide (y.2 ≤ x.2))

/-- fairness.py lines 166-199: resolution of a tie among `tieGroups`, all
of which occur `count` times. `choice` is an oracle standing for
`random.choice` (the only non-deterministic path). The code's sortability
check (`hasattr(g, "__lt__")` on every tied group, lines 174-179) always
passes for the string labels modeled here and is therefore not
represented. -/
def breakTie (choice : List String → String) (tb : Option TieBreakingParam)
    (tieGroups : List String) (count : Nat) : Except SelectionError String :=
  match tb with
  | none => .error (.tie tieGroups count)
  | some .random => .ok (choice tieGroups)
  | some .groupAscending =>
    .ok ((tieGroups.mergeSort (fun a b => decide (a ≤ b))).headD "")
  | some .groupDescending =>
    .ok ((tieGroups.mergeSort (fun a b => decide (b ≤ a))).headD "")
  | some (.preference prefs) =>
    match prefs.filter (fun g => tieGroups.contains g) with
    | [] => .error (.preferenceMismatch prefs tieGroups)
    | g :: _ => .ok g

/-- fairness.py lines 158-200: given the sorted counts items, detect a tie
between the two top-sorted groups (`groups[0][1] == groups[1][1]`, only
checked when `len(groups) > 1`), collect every group sharing the top
count into `tie_groups`, and either resolve the tie or return the
top-sorted group; `groups[0][0]` on an empty mapping is an `IndexError`. -/
def selectFromSorted (choice : List String → String)
    (tb : Option TieBreakingParam) (sorted : List (String × Nat)) :
    Except SelectionError String :=
  match sorted with
  | [] => .error .indexError
  | [p] => .ok p.1
  | p₀ :: p₁ :: rest =>
    if p₀.2 = p₁.2 then
      breakTie choice tb
        (((p₀ :: p₁ :: rest).filter (fun p => p.2 == p₀.2)).map Prod.fst) p₀.2
    else .ok p₀.1

/-- `FairnessMeasure._protected_group` (fairness.py lines 143-202): an
explicit group label is returned as-is; a strategy sorts the counts and
selects from the sorted items. -/
def protectedGroup (choice : List String → String) (pg : ProtectedGroupParam)
    (tb : Option TieBreakingParam) (counts : List (String × Nat)) :
    Except SelectionError String :=
  match pg with
  | .explicitGroup g => .ok g
  | .strategy strat => selectFromSorted choice tb (sortedGroups strat counts)

/-! ## Stance-based rerankers (`src/fare/modules/fairness_reranker.py`) -/

/-- One row of a per-query ranking as the rerankers see it: `stance_value`
is a float column where a missing value is `NaN` (modeled `none`; every
Python comparison against `NaN` is false, which the `Bool` helpers below
reproduce), and `stance_label` is a string column where a missing value is
`NaN` (modeled `none`). -/
structure RunDoc where
  docno : String
  score : ℚ
  stance : Option ℚ
  label : Option String
deriving DecidableEq

/-- `stance_value > 0` ("pro A"), false on `NaN`. -/
def stancePos (s : Option ℚ) : Bool :=
  match s with
  | some v => decide (0 < v)
  | none => false

/-- `stance_value < 0` ("pro B"), false on `NaN`. -/
def stanceNeg (s : Option ℚ) : Bool :=
  match s with
  | some v => decide (v < 0)
  | none => false

/-- `stance_value <= 0` (pro B or neutral), false on `NaN`. -/
def stanceLe0 (s : Option ℚ) : Bool :=
  match s with
  | some v => decide (v ≤ 0)
  | none => false

/-- `stance_value >= 0` (pro A or neutral), false on `NaN`. -/
def stanceGe0 (s : Option ℚ) : Bool :=
  match s with
  | some v => decide (0 ≤ v)
  | none => false

/-- `ranking["score"] = arange(len(ranking), 0, -1)` (fairness_reranker.py
lines 52-53 and 135-136): stamp scores `n, n-1, ..., 1` down the list. -/
def withScores : List RunDoc → Nat → List RunDoc
  | [], _ => []
  | d :: ds, n => { d with score := (n : ℚ) } :: withScores ds (n - 1)

/-- The synthetic strictly-descending score reset applied after reordering. -/
def resetScores (r : List RunDoc) : List RunDoc :=
  withScores r r.length

/-- Select the first element satisfying `p` together with the remaining
list (the reranker's `candidates.iloc[0]` followed by
`ranking.drop(index=index)`). -/
def extractFirst (p : α → Bool) : List α → Option (α × List α)
  | [] => none
  | x :: xs =>
    if p x then some (x, xs)
    else
      match extractFirst p xs with
      | none => none
      | some (d, rest) => some (d, x :: rest)

/-- fairness_reranker.py lines 24-36: the candidate filter of
`AlternatingStanceReranker` as a predicate on the remaining pool. With a
pro-A last stance, candidates are the `stance_value <= 0` rows; with a
pro-B last stance, the `stance_value >= 0` rows; with a neutral or `NaN`
last stance, every row (a `NaN` last stance falls into the `else` branch
because both `last_stance > 0` and `last_stance < 0` are false). -/
def altCandidate (last : Option ℚ) (d : RunDoc) : Bool :=
  if stancePos last then stanceLe0 d.stance
  else if stanceNeg last then stanceGe0 d.stance
  else true

/-- The selection loop of `AlternatingStanceReranker._transform_query`
(fairness_reranker.py lines 23-49). When the candidate set is empty the
code resets `last_stance` to `NaN` and re-enters the loop without removing
anything; the next iteration filters with the all-pass predicate and picks
the pool's first document — that step is inlined here as the `none` arm.
Each emitted document shrinks the pool by one, so `pool.length` fuel
suffices (`alternate_spec` below). -/
def alternate : Nat → Option ℚ → List RunDoc → List RunDoc
  | 0, _, _ => []
  | _, _, [] => []
  | fuel + 1, last, p₀ :: rest =>
    match extractFirst (altCandidate last) (p₀ :: rest) with
    | some (c, pool₂) => c :: alternate fuel c.stance pool₂
    | none => p₀ :: alternate fuel p₀.stance rest

/-- `AlternatingStanceReranker._transform_query` (fairness_reranker.py
lines 18-54): greedy alternating selection starting from `last_stance =
nan`, then the synthetic score reset. -/
def alternatingRerank (pool : List RunDoc) : List RunDoc :=
  resetScores (alternate pool.length none pool)

/-- The alternation guarantee (claim C6), stated over any split of the
output into `pre ++ c₁ :: c₂ :: post`: when two consecutive output
documents `c₁, c₂` carry the same stance sign, no document of the
opposite sign or of neutral stance (`<= 0` against a positive pair,
`>= 0` against a negative pair) occurs from `c₂` onward. Since the
selection loop removes exactly the emitted document at each step, the
documents from `c₂` onward are precisely the remaining pool at the moment
`c₂` was selected, so this says such a pair arises only when no candidate
of the opposite sign or neutral stance was still available. -/
def noSameSignRun (out : List RunDoc) : Prop :=
  ∀ (pre : List RunDoc) (c₁ c₂ : RunDoc) (post : List RunDoc),
    out = pre ++ c₁ :: c₂ :: post →
    (stancePos c₁.stance = true → stancePos c₂.stance = true →
      ∀ d ∈ c₂ :: post, stanceLe0 d.stance = false) ∧
    (stanceNeg c₁.stance = true → stanceNeg c₂.stance = true →
      ∀ d ∈ c₂ :: post, stanceGe0 d.stance = false)

/-- fairness_reranker.py lines 79-85: the pro-A count of the top-`k`
window. -/
def countProA (k : Nat) (r : List RunDoc) : Nat :=
  (r.take k).countP (fun d => stancePos d.stance)

/-- The pro-B count of the top-`k` window. -/
def countProB (k : Nat) (r : List RunDoc) : Nat :=
  (r.take k).countP (fun d => stanceNeg d.stance)

/-- `abs(count_pro_a() - count_pro_b())`, the polarity imbalance of the
top-`k` window. -/
def imbalance (k : Nat) (r : List RunDoc) : Nat :=
  ((countProA k r : Int) - (countProB k r : Int)).natAbs

/-- Index of the last element satisfying `p` (the reranker's
`candidates.index.tolist()[-1]` over a head slice). -/
def lastIdxWhere (p : α → Bool) : List α → Option Nat
  | [] => none
  | x :: xs =>
    match lastIdxWhere p xs with
    | some i => some (i + 1)
    | none => if p x then some 0 else none

/-- Index of the first element satisfying `p` (the reranker's
`candidates.index.tolist()[0]` over a tail slice, relative to the slice). -/
def firstIdxWhere (p : α → Bool) : List α → Option Nat
  | [] => none
  | x :: xs => if p x then some 0 else (firstIdxWhere p xs).map (· + 1)

/-- The move `concat([ranking.loc[:i-1], ranking.loc[i+1:j],
ranking.loc[i:i], ranking.loc[j+1:]])` (fairness_reranker.py lines 105-110
and 125-130) for row positions `i < j`: the row at `i` is reinserted
immediately after the row at `j`, and the rows between shift up by one.
(`.loc` slicing on the reset integer index is positional and inclusive of
its endpoints; `loc[:i-1]` with `i = 0` selects no rows.) -/
def moveElem (i j : Nat) (r : List RunDoc) : List RunDoc :=
  r.take i ++ (r.drop (i + 1)).take (j - i) ++ (r.drop i).take 1 ++
    r.drop (j + 1)

/-- One iteration of the corrective-swap loop of
`BalancedStanceReranker._transform_query` (fairness_reranker.py lines
87-130), entered when the window is imbalanced: on the pro-A-heavy side,
the last pro-A row of `head = ranking.iloc[:k-1]` and the first pro-B row
of `tail = ranking.iloc[k:]` are located and the former is moved behind
the latter; `none` models the early `return ranking` when either candidate
set is empty. The pro-B-heavy side (`count_pro_a - count_pro_b <= 0`
under `abs(...) > 1`) is the mirror image. -/
def balancedStep (k : Nat) (r : List RunDoc) : Option (List RunDoc) :=
  if countProB k r < countProA k r then
    match lastIdxWhere (fun d => stancePos d.stance) (r.take (k - 1)),
        firstIdxWhere (fun d => stanceNeg d.stance) (r.drop k) with
    | some ia, some j => some (moveElem ia (k + j) r)
    | _, _ => none
  else
    match lastIdxWhere (fun d => stanceNeg d.stance) (r.take (k - 1)),
        firstIdxWhere (fun d => stancePos d.stance) (r.drop k) with
    | some ib, some j => some (moveElem ib (k + j) r)
    | _, _ => none

/-- The `while abs(count_pro_a() - count_pro_b()) > 1` loop, fueled (the
source loop's termination is not needed by any claim; the Boolean flags an
early `return` from inside the loop body, which skips the score reset). -/
def balancedLoop (k : Nat) : Nat → List RunDoc → List RunDoc × Bool
  | 0, r => (r, false)
  | fuel + 1, r =>
    if 1 < imbalance k r then
      match balancedStep k r with
      | none => (r, true)
      | some r₂ => balancedLoop k fuel r₂
    else (r, false)

/-- `BalancedStanceReranker._transform_query` (fairness_reranker.py lines
73-137): `k = min(self.k, len(ranking))`, the swap loop, and — unless the
loop returned early — the synthetic score reset. -/
def balancedRerank (k : Nat) (r : List RunDoc) : List RunDoc :=
  match balancedLoop (min k r.length) (r.length * r.length + 1) r with
  | (r₂, true) => r₂
  | (r₂, false) => resetScores r₂

/-- `ranking["score"].min()` over a per-query group (nonempty in pandas
`groupby`). -/
def minScore : List ℚ → ℚ
  | [] => 0
  | s :: rest => rest.foldl min s

/-- `ranking["score"].max()`. -/
def maxScore : List ℚ → ℚ
  | [] => 0
  | s :: rest => rest.foldl max s

/-- `_normalize_scores` (fairness_reranker.py lines 154-164):
`(score - min) / (max - min)` for every row. The Python code divides
unconditionally; when every score is equal the denominator is `0` and the
float division yields `NaN` in every row rather than a well-defined value
in `[0, 1]` — the embedding returns `none` exactly in that case, making
the division's precondition explicit. `InverseStanceGainReranker._rerank_query`
(lines 180-201) applies this to each query's ranking before blending. -/
def normalizeScores (r : List RunDoc) : Option (List RunDoc) :=
  let mn := minScore (r.map RunDoc.score)
  let mx := maxScore (r.map RunDoc.score)
  if mx - mn = 0 then none
  else some (r.map (fun d => { d with score := (d.score - mn) / (mx - mn) }))

/-- `ranking["stance_label"].fillna("NO", inplace=True)` (fairness_reranker.py
line 222). -/
def fillLabels (r : List RunDoc) : List RunDoc :=
  r.map (fun d => { d with label := some (d.label.getD "NO") })

/-- `ranking.groupby("stance_label").size().to_dict()` (fairness_reranker.py
line 224). -/
def stanceCounts (r : List RunDoc) : List (String × Nat) :=
  valueCounts (r.map (fun d => d.label.getD "NO"))

/-- `BoostMinorityStanceReranker._rerank_query` as written
(fairness_reranker.py lines 220-236): after the label fill and the counts
dictionary, line 227 evaluates `stance_counts.get(stance, default=0)`
inside the `sorted` key function — but `dict.get` accepts no keyword
arguments, so the first key evaluation raises
`TypeError: get() takes no keyword arguments`, on every input, before any
boost is applied. (The lines after it are also malformed: they build a
`set` over the characters of one label string and map the score column —
not the label column — through it.) -/
def boostMinorityCode (boost : ℚ) (r : List RunDoc) :
    Except PyError (List RunDoc) :=
  let _counts := stanceCounts (fillLabels r)
  Except.error PyError.typeError

/-! Concrete inputs for the reranker claims. -/

/-- The spec's boost example: stance labels `[FIRST, FIRST, SECOND, NO]`
(the last one absent, to be filled as `NO`). -/
def exStances : List RunDoc :=
  [⟨"d1", 4, none, some "FIRST"⟩, ⟨"d2", 3, none, some "FIRST"⟩,
    ⟨"d3", 2, none, some "SECOND"⟩, ⟨"d4", 1, none, none⟩]

/-- A top-3-imbalanced ranking `[A, A, A, A, B]` (stances `1,1,1,1,-1`). -/
def exBalanced : List RunDoc :=
  [⟨"a1", 5, some 1, none⟩, ⟨"a2", 4, some 1, none⟩,
    ⟨"a3", 3, some 1, none⟩, ⟨"a4", 2, some 1, none⟩,
    ⟨"b1", 1, some (-1), none⟩]

/-- A ranking `[A, A, B]` whose top-2 window is pro-A-heavy. -/
def exBalanced₂ : List RunDoc :=
  [⟨"a1", 3, some 1, none⟩, ⟨"a2", 2, some 1, none⟩,
    ⟨"b1", 1, some (-1), none⟩]

/-- Two pro-A documents (for the alternation witness). -/
def exAlt : List RunDoc :=
  [⟨"a1", 2, some 1, none⟩, ⟨"a2", 1, some 1, none⟩]

/-- Scores `[1, 3]` (for the normalization witness). -/
def exScores : List RunDoc :=
  [⟨"d1", 1, none, none⟩, ⟨"d2", 3, none, none⟩]

/-! ## Theorems -/

/-- The two discount facts used to evaluate the metric on concrete inputs:
`log2 2 = 1`. -/
theorem logb_two_two : Real.logb 2 2 = 1 :=
  Real.logb_self_eq_one (by norm_num)

/-- `log2 4 = 2`. -/
theorem logb_two_four : Real.logb 2 4 = 2 := by
  rw [show (4 : ℝ) = 2 ^ (2 : ℕ) from by norm_num, Real.logb_pow]
  rw [logb_two_two]
  norm_num

/-- Evaluation of the embedded metric on the one-document ranking
`[{rank 1, group B}]` with counts `{B: 1}`: the code computes
`(1/log2 2) * ||1/2| - |1/1|| = 1/2`. -/
theorem rND_singleB_eq : rND exSingleB exCountsB "B" = 1 / 2 := by
  have h1 : rndRepair [(⟨1, "B", 1⟩ : RDoc)] = [⟨1, "B", 1⟩] := by decide
  have e1 : sPlusIn [(⟨1, "B", 1⟩ : RDoc)] "B" 1 = 1 := by decide
  have e2 : lookupCount exCountsB "B" = 1 := by decide
  have e3 : totalCount exCountsB = 1 := by decide
  simp only [rND, exSingleB, h1, List.map_cons, List.map_nil, List.sum_cons,
    List.sum_nil, e1, e2, e3, rndTerm]
  rw [show ((1 : ℕ) : ℝ) = 1 from by norm_num,
      show ((1 : ℝ) + 1) = 2 from by norm_num, logb_two_two]
  rw [abs_of_nonneg (by norm_num : (0 : ℝ) ≤ 1 / 2),
      abs_of_nonneg (by norm_num : (0 : ℝ) ≤ 1 / 1)]
  rw [show |(1 : ℝ) / 2 - 1 / 1| = 1 / 2 from by
    rw [show (1 : ℝ) / 2 - 1 / 1 = -(1 / 2) from by norm_num, abs_neg,
      abs_of_nonneg (by norm_num : (0 : ℝ) ≤ 1 / 2)]]
  norm_num

/-- The spec's formula on the same input gives `(1/log2 2) * |1/1 - 1/1| = 0`. -/
theorem rndSpecFormula_singleB_eq : rndSpecFormula exSingleB exCountsB "B" = 0 := by
  have h1 : rndRepair [(⟨1, "B", 1⟩ : RDoc)] = [⟨1, "B", 1⟩] := by decide
  have e1 : sPlusIn [(⟨1, "B", 1⟩ : RDoc)] "B" 1 = 1 := by decide
  have e2 : lookupCount exCountsB "B" = 1 := by decide
  have e3 : totalCount exCountsB = 1 := by decide
  have hd : (List.map RDoc.rank [(⟨1, "B", 1⟩ : RDoc)]).dedup = [1] := by decide
  have hd2 : ([1] : List Nat).dedup = [1] := by decide
  simp only [rndSpecFormula, exSingleB, h1, hd, List.map_cons, List.map_nil,
    List.sum_cons, List.sum_nil, hd2, e1, e2, e3]
  norm_num

/-- Claim C1, counterexample: on the one-document ranking `[{rank 1, group B}]`
with group counts `{B: 1}` and protected group `B`, the score the code
computes (`1/2`, dividing the prefix count by `i + 1`) differs from the
claim's formula `Σ (1/log2(i+1)) * |S_in_i/i − S+/N|` (which gives `0`
here): the claimed equality of the two is false. -/
theorem claim_c1_counterexample :
    rND exSingleB exCountsB "B" ≠ rndSpecFormula exSingleB exCountsB "B" := by
  rw [rND_singleB_eq, rndSpecFormula_singleB_eq]
  norm_num

/-- Claim C1 (amended): for every per-query ranking, group counts with
total population `N > 0` and protected group, the rND score equals the sum,
over the rank positions `i` as iterated, of
`(1/log2(i+1)) * |S_in_i/(i+1) − S+/N|` — the prefix count is divided by
`i + 1`, not by `i`; consequently, on the spec's worked example the score
is `1/3 + 1/(3·log2 3) + 1/24 ≈ 0.585`, not `≈ 0.543`. -/
theorem claim_c1_amended (ranking : List RDoc) (c : List (String × Nat))
    (g : String) (hN : 0 < totalCount c) :
    rND ranking c g = rndCodeFormula ranking c g ∧
    rND exRanking exCounts "B" = 1 / 3 + 1 / (3 * Real.logb 2 3) + 1 / 24 := by
  constructor
  · simp only [rND, rndCodeFormula]
    congr 1
    apply List.map_congr_left
    intro d _
    rw [rndTerm]
    have hd1 : (0 : ℝ) ≤ (d.rank : ℝ) + 1 := by
      have := Nat.cast_nonneg (α := ℝ) d.rank
      linarith
    rw [abs_of_nonneg (div_nonneg (Nat.cast_nonneg _) hd1),
        abs_of_nonneg (show (0 : ℝ) ≤
            (lookupCount c g : ℝ) / (totalCount c : ℝ) from
          div_nonneg (Nat.cast_nonneg _) (Nat.cast_nonneg _))]
  · have h1 : rndRepair
        [(⟨1, "A", 3⟩ : RDoc), ⟨2, "A", 2⟩, ⟨3, "B", 1⟩] =
        [⟨1, "A", 3⟩, ⟨2, "A", 2⟩, ⟨3, "B", 1⟩] := by decide
    have ea1 : sPlusIn
        [(⟨1, "A", 3⟩ : RDoc), ⟨2, "A", 2⟩, ⟨3, "B", 1⟩] "B" 1 = 0 := by decide
    have ea2 : sPlusIn
        [(⟨1, "A", 3⟩ : RDoc), ⟨2, "A", 2⟩, ⟨3, "B", 1⟩] "B" 2 = 0 := by decide
    have ea3 : sPlusIn
        [(⟨1, "A", 3⟩ : RDoc), ⟨2, "A", 2⟩, ⟨3, "B", 1⟩] "B" 3 = 1 := by decide
    have eb : lookupCount exCounts "B" = 1 := by decide
    have ec : totalCount exCounts = 3 := by decide
    have hr : rND exRanking exCounts "B" =
        rndTerm 0 1 1 3 + (rndTerm 0 2 1 3 + (rndTerm 1 3 1 3 + 0)) := by
      simp only [rND, exRanking, h1, List.map_cons, List.map_nil,
        List.sum_cons, List.sum_nil, ea1, ea2, ea3, eb, ec]
    rw [hr]
    simp only [rndTerm]
    push_cast
    rw [show (1 : ℝ) + 1 = 2 from by norm_num, logb_two_two,
        show (3 : ℝ) + 1 = 4 from by norm_num, logb_two_four]
    have hlog3 : 0 < Real.logb 2 3 :=
      Real.logb_pos (by norm_num) (by norm_num)
    have k1 : |abs ((0 : ℝ) / 2) - abs ((1 : ℝ) / 3)| = 1 / 3 := by
      rw [show (0 : ℝ) / 2 = 0 from by norm_num, abs_zero,
        abs_of_nonneg (by norm_num : (0 : ℝ) ≤ 1 / 3),
        show (0 : ℝ) - 1 / 3 = -(1 / 3) from by norm_num, abs_neg,
        abs_of_nonneg (by norm_num : (0 : ℝ) ≤ 1 / 3)]
    have k2 : |abs ((0 : ℝ) / (2 + 1)) - abs ((1 : ℝ) / 3)| = 1 / 3 := by
      rw [show (0 : ℝ) / (2 + 1) = 0 from by norm_num, abs_zero,
        abs_of_nonneg (by norm_num : (0 : ℝ) ≤ 1 / 3),
        show (0 : ℝ) - 1 / 3 = -(1 / 3) from by norm_num, abs_neg,
        abs_of_nonneg (by norm_num : (0 : ℝ) ≤ 1 / 3)]
    have k3 : |abs ((1 : ℝ) / 4) - abs ((1 : ℝ) / 3)| = 1 / 12 := by
      rw [abs_of_nonneg (by norm_num : (0 : ℝ) ≤ 1 / 4),
        abs_of_nonneg (by norm_num : (0 : ℝ) ≤ 1 / 3),
        show (1 : ℝ) / 4 - 1 / 3 = -(1 / 12) from by norm_num, abs_neg,
        abs_of_nonneg (by norm_num : (0 : ℝ) ≤ 1 / 12)]
    rw [k1, k2, k3, show (2 : ℝ) + 1 = 3 from by norm_num]
    field_simp
    ring

/-- Witness: the amended C1 theorem applied to the spec's worked example
(`N = 3 > 0`). -/
theorem claim_c1_amended_witness :
    0 < totalCount exCounts ∧
    rND exRanking exCounts "B" = rndCodeFormula exRanking exCounts "B" :=
  ⟨by decide, (claim_c1_amended exRanking exCounts "B" (by decide)).1⟩

/-- Claim C3, counterexample: on the one-document ranking `[{rank 1, group B}]`
with counts `{B: 1}` (so `N = 1 > 0`), the only rank position present is
`i = 1` and the prefix proportion there equals the global proportion
(`S_in_1/1 = 1 = S+/N`), so the claim's zero condition holds at every
prefix — yet the code's score is `1/2 ≠ 0`, because the code divides the
prefix count by `i + 1`. -/
theorem claim_c3_counterexample :
    0 < totalCount exCountsB ∧
    (sPlusIn (rndRepair exSingleB) "B" 1 : ℝ) / (1 : ℝ) =
      (lookupCount exCountsB "B" : ℝ) / (totalCount exCountsB : ℝ) ∧
    rND exSingleB exCountsB "B" ≠ 0 := by
  refine ⟨by decide, ?_, ?_⟩
  · rw [show sPlusIn (rndRepair exSingleB) "B" 1 = 1 from by decide,
        show lookupCount exCountsB "B" = 1 from by decide,
        show totalCount exCountsB = 1 from by decide]
    norm_num
  · rw [rND_singleB_eq]
    norm_num

/-- Claim C3 (amended): for every per-query ranking, group counts with
total `N > 0` and protected group, the rND score is `≥ 0`; and it equals
`0` whenever at every rank position `i` present in the (repaired) ranking
the prefix count divided by `i + 1` — the quotient the code actually
forms — equals the protected group's global proportion `S+/N`. -/
theorem claim_c3_amended (ranking : List RDoc) (c : List (String × Nat))
    (g : String) (hN : 0 < totalCount c) :
    0 ≤ rND ranking c g ∧
    ((∀ d ∈ rndRepair ranking,
        (sPlusIn (rndRepair ranking) g d.rank : ℝ) / ((d.rank : ℝ) + 1) =
          (lookupCount c g : ℝ) / (totalCount c : ℝ)) →
      rND ranking c g = 0) := by
  constructor
  · simp only [rND]
    apply List.sum_nonneg
    intro x hx
    obtain ⟨d, hd, rfl⟩ := List.mem_map.mp hx
    rw [rndTerm]
    apply mul_nonneg
    · apply one_div_nonneg.mpr
      apply Real.logb_nonneg (by norm_num)
      have := Nat.cast_nonneg (α := ℝ) d.rank
      linarith
    · exact abs_nonneg _
  · intro h
    simp only [rND]
    apply List.sum_eq_zero
    intro x hx
    obtain ⟨d, hd, rfl⟩ := List.mem_map.mp hx
    rw [rndTerm]
    have hd1 : (0 : ℝ) ≤ (d.rank : ℝ) + 1 := by
      have := Nat.cast_nonneg (α := ℝ) d.rank
      linarith
    rw [abs_of_nonneg (div_nonneg (Nat.cast_nonneg _) hd1),
        abs_of_nonneg (show (0 : ℝ) ≤
            (lookupCount c g : ℝ) / (totalCount c : ℝ) from
          div_nonneg (Nat.cast_nonneg _) (Nat.cast_nonneg _))]
    rw [h d hd, sub_self, abs_zero, mul_zero]

/-- Witness: the amended C3 theorem applied to the spec's worked example. -/
theorem claim_c3_amended_witness : 0 ≤ rND exRanking exCounts "B" :=
  (claim_c3_amended exRanking exCounts "B" (by decide)).1

/-- Claim C4 (confirmed): for every per-query ranking `R` with 1-based ranks
(all ranks `≥ 1`, rank `1` present) and the ranking `R0` obtained by
decreasing every rank by one while keeping order, groups and scores, the
rND score of `R0` equals that of `R`: the zero-index repair of the code
shifts `R0`'s ranks back up, restoring `R` exactly. -/
theorem claim_c4 (ranking : List RDoc) (c : List (String × Nat)) (g : String)
    (h1 : ∀ d ∈ ranking, 1 ≤ d.rank) (h2 : ∃ d ∈ ranking, d.rank = 1) :
    rND (shiftRanksDown ranking) c g = rND ranking c g := by
  have hrep : rndRepair ranking = ranking := by
    rw [rndRepair, if_neg]
    intro hany
    rw [List.any_eq_true] at hany
    obtain ⟨d, hd, hd0⟩ := hany
    have := h1 d hd
    simp only [beq_iff_eq] at hd0
    omega
  have hcond : (shiftRanksDown ranking).any (fun d => d.rank == 0) = true := by
    rw [shiftRanksDown, List.any_eq_true]
    obtain ⟨d, hd, hd1⟩ := h2
    exact ⟨{ d with rank := d.rank - 1 }, List.mem_map_of_mem _ hd,
      by simp [hd1]⟩
  have hrep2 : rndRepair (shiftRanksDown ranking) = ranking := by
    rw [rndRepair, if_pos hcond, shiftRanksDown, List.map_map]
    have hmap : ∀ d ∈ ranking,
        ((fun d => { d with rank := d.rank + 1 }) ∘
          fun d => { d with rank := d.rank - 1 }) d = id d := by
      intro d hd
      have := h1 d hd
      simp only [Function.comp, id]
      rw [show d.rank - 1 + 1 = d.rank from by omega]
    rw [List.map_congr_left hmap, List.map_id]
  simp only [rND, hrep, hrep2]

/-- Witness: claim C4 applied to the spec's worked example ranking (ranks
1,2,3 shifted down to 0,1,2). -/
theorem claim_c4_witness :
    rND (shiftRanksDown exRanking) exCounts "B" = rND exRanking exCounts "B" :=
  claim_c4 exRanking exCounts "B" (by decide) (by decide)

/-- The defaultdict-with-zero lookup of a `valueCounts` mapping returns the
plain occurrence count of the looked-up label (so absent labels resolve to
`0` rather than raising). -/
theorem lookupCount_valueCounts_eq_count (l : List String) (g : String) :
    lookupCount (valueCounts l) g = l.count g := by
  unfold lookupCount valueCounts
  cases h : (l.dedup.map (fun x => (x, l.count x))).find? (fun p => p.1 == g) with
  | none =>
    rw [List.find?_eq_none] at h
    by_cases hg : g ∈ l
    · exact absurd (by simp : (((g, l.count g) : String × Nat).1 == g) = true)
        (h (g, l.count g) (List.mem_map_of_mem _ (List.mem_dedup.mpr hg)))
    · exact (List.count_eq_zero.mpr hg).symm
  | some p =>
    obtain ⟨x, hx, hxp⟩ := List.mem_map.mp (List.mem_of_find?_eq_some h)
    have hp := List.find?_some h
    subst hxp
    simp only [beq_iff_eq] at hp
    subst hp
    rfl

/-- Claim C9 (the intent is right, the code raises): `_group_counts` as
written raises `NameError` on every judgment set, because `defaultdict` is
never imported in `src/fare/metric/fairness.py`; the intended mapping —
the group sizes wrapped in `defaultdict(lambda: 0, ...)` — gives each
present group its occurrence count and resolves every absent group
(including every group of an empty judgment set) to `0` without raising. -/
theorem claim_c9 :
    (∀ qrels : List Qrel,
      groupCountsCode qrels = Except.error (PyError.nameError "defaultdict")) ∧
    (∀ (qrels : List Qrel) (g : String),
      lookupCount (groupSizes qrels) g = (qrels.map Qrel.group).count g) ∧
    (∀ (qrels : List Qrel) (g : String), g ∉ qrels.map Qrel.group →
      lookupCount (groupSizes qrels) g = 0) := by
  refine ⟨fun _ => rfl, fun qrels g => lookupCount_valueCounts_eq_count _ _,
    fun qrels g hg => ?_⟩
  rw [groupSizes, lookupCount_valueCounts_eq_count]
  exact List.count_eq_zero.mpr hg

/-- Witness: the C9 theorem applied to the empty judgment set and a group
label absent from it. -/
theorem claim_c9_witness : lookupCount (groupSizes []) "B" = 0 :=
  claim_c9.2.2 [] "B" (by simp)
/-- Shape of a count-sorted list in which two distinct groups share the
extremal count `m`: the list has at least two entries and its first two
entries both carry count `m`. Parametric in the ordering direction `R`
(`≤` for minority-ascending, `≥` for majority-descending). -/
theorem tie_sorted_shape (R : Nat → Nat → Prop)
    (hrefl : ∀ x, R x x) (hanti : ∀ x y, R x y → R y x → x = y)
    (S : List (String × Nat)) (m : Nat)
    (hpair : S.Pairwise (fun a b => R a.2 b.2))
    (g₁ g₂ : String) (h₁ : (g₁, m) ∈ S) (h₂ : (g₂, m) ∈ S) (hne : g₁ ≠ g₂)
    (hall : ∀ p ∈ S, R m p.2) :
    ∃ p₀ p₁ rest, S = p₀ :: p₁ :: rest ∧ p₀.2 = m ∧ p₁.2 = m := by
  cases S with
  | nil => exact absurd h₁ (List.not_mem_nil _)
  | cons p₀ tail =>
    cases tail with
    | nil =>
      simp only [List.mem_singleton] at h₁ h₂
      rw [← h₂] at h₁
      exact absurd (congrArg Prod.fst h₁) hne
    | cons p₁ rest =>
      obtain ⟨hp01, hpair'⟩ := List.pairwise_cons.mp hpair
      obtain ⟨hp1r, _⟩ := List.pairwise_cons.mp hpair'
      have h0m : R p₀.2 m := by
        rcases List.mem_cons.mp h₁ with h | h
        · rw [← h]
          exact hrefl m
        · exact hp01 _ h
      have e0 : p₀.2 = m := hanti _ _ h0m (hall p₀ (by simp))
      have h1m : R p₁.2 m := by
        by_cases hc : (g₁, m) = p₀
        · have h₂' : (g₂, m) ∈ p₁ :: rest := by
            rcases List.mem_cons.mp h₂ with h | h
            · exact absurd (congrArg Prod.fst (h.trans hc.symm)) (Ne.symm hne)
            · exact h
          rcases List.mem_cons.mp h₂' with h | h
          · rw [← h]
            exact hrefl m
          · exact hp1r _ h
        · have h₁' : (g₁, m) ∈ p₁ :: rest := by
            rcases List.mem_cons.mp h₁ with h | h
            · exact absurd h hc
            · exact h
          rcases List.mem_cons.mp h₁' with h | h
          · rw [← h]
            exact hrefl m
          · exact hp1r _ h
      have e1 : p₁.2 = m := hanti _ _ h1m (hall p₁ (by simp))
      exact ⟨p₀, p₁, rest, rfl, e0, e1⟩

/-- The `tie_groups` comprehension (fairness.py lines 160-165) collects
exactly the groups whose count equals `m`, as a membership over the
original counts mapping. -/
theorem tie_filter_mem (S : List (String × Nat)) (counts : List (String × Nat))
    (hperm : S.Perm counts) (m : Nat) (g : String) :
    g ∈ (S.filter (fun p => p.2 == m)).map Prod.fst ↔ (g, m) ∈ counts := by
  constructor
  · intro hg
    obtain ⟨p, hp, rfl⟩ := List.mem_map.mp hg
    obtain ⟨hpS, hpm⟩ := List.mem_filter.mp hp
    simp only [beq_iff_eq] at hpm
    exact hperm.mem_iff.mp (by rw [show (p.1, m) = p from by rw [← hpm]]; exact hpS)
  · intro hg
    exact List.mem_map.mpr ⟨(g, m),
      List.mem_filter.mpr ⟨hperm.mem_iff.mpr hg, by simp⟩, rfl⟩

/-- A tie at the minimum with no tie-breaking configured makes MINORITY
selection fail with the `ValueError` naming the tied groups and their
shared count. -/
theorem minority_tie_aux (counts : List (String × Nat))
    (choice : List String → String) (g₁ g₂ : String) (m : Nat)
    (h₁ : (g₁, m) ∈ counts) (h₂ : (g₂, m) ∈ counts) (hne : g₁ ≠ g₂)
    (hmin : ∀ p ∈ counts, m ≤ p.2) :
    ∃ tg, protectedGroup choice (.strategy .minority) none counts =
        .error (.tie tg m) ∧ ∀ g, g ∈ tg ↔ (g, m) ∈ counts := by
  have hperm := List.mergeSort_perm counts (fun x y => decide (x.2 ≤ y.2))
  have hpairb := @List.sorted_mergeSort (String × Nat)
    (fun x y => decide (x.2 ≤ y.2))
    (by intro a b c hab hbc; simp only [decide_eq_true_eq] at *; omega)
    (by intro a b; simp only [Bool.or_eq_true, decide_eq_true_eq]; omega) counts
  have hpair : (counts.mergeSort (fun x y => decide (x.2 ≤ y.2))).Pairwise
      (fun a b => a.2 ≤ b.2) := hpairb.imp (fun h => of_decide_eq_true h)
  obtain ⟨p₀, p₁, rest, hS, e0, e1⟩ :=
    tie_sorted_shape (· ≤ ·) le_refl (fun _ _ => le_antisymm) _ m hpair g₁ g₂
      (hperm.mem_iff.mpr h₁) (hperm.mem_iff.mpr h₂) hne
      (fun p hp => hmin p (hperm.subset hp))
  refine ⟨((p₀ :: p₁ :: rest).filter (fun p => p.2 == p₀.2)).map Prod.fst,
    ?_, ?_⟩
  · simp only [protectedGroup, sortedGroups]
    rw [hS]
    simp only [selectFromSorted]
    rw [if_pos (e0.trans e1.symm)]
    simp only [breakTie]
    rw [e0]
  · intro g
    rw [e0]
    exact tie_filter_mem _ counts (hS ▸ hperm) m g

/-- The mirror image for MAJORITY: a tie at the maximum with no
tie-breaking configured fails with the `ValueError` naming the tied
groups and their shared count. -/
theorem majority_tie_aux (counts : List (String × Nat))
    (choice : List String → String) (g₁ g₂ : String) (m : Nat)
    (h₁ : (g₁, m) ∈ counts) (h₂ : (g₂, m) ∈ counts) (hne : g₁ ≠ g₂)
    (hmax : ∀ p ∈ counts, p.2 ≤ m) :
    ∃ tg, protectedGroup choice (.strategy .majority) none counts =
        .error (.tie tg m) ∧ ∀ g, g ∈ tg ↔ (g, m) ∈ counts := by
  have hperm := List.mergeSort_perm counts (fun x y => decide (y.2 ≤ x.2))
  have hpairb := @List.sorted_mergeSort (String × Nat)
    (fun x y => decide (y.2 ≤ x.2))
    (by intro a b c hab hbc; simp only [decide_eq_true_eq] at *; omega)
    (by intro a b; simp only [Bool.or_eq_true, decide_eq_true_eq]; omega) counts
  have hpair : (counts.mergeSort (fun x y => decide (y.2 ≤ x.2))).Pairwise
      (fun a b => b.2 ≤ a.2) := hpairb.imp (fun h => of_decide_eq_true h)
  obtain ⟨p₀, p₁, rest, hS, e0, e1⟩ :=
    tie_sorted_shape (fun a b => b ≤ a) le_refl
      (fun _ _ hxy hyx => le_antisymm hyx hxy) _ m hpair g₁ g₂
      (hperm.mem_iff.mpr h₁) (hperm.mem_iff.mpr h₂) hne
      (fun p hp => hmax p (hperm.subset hp))
  refine ⟨((p₀ :: p₁ :: rest).filter (fun p => p.2 == p₀.2)).map Prod.fst,
    ?_, ?_⟩
  · simp only [protectedGroup, sortedGroups]
    rw [hS]
    simp only [selectFromSorted]
    rw [if_pos (e0.trans e1.symm)]
    simp only [breakTie]
    rw [e0]
  · intro g
    rw [e0]
    exact tie_filter_mem _ counts (hS ▸ hperm) m g

/-- With a unique minimum, MINORITY selection returns that group for every
tie-breaking configuration (the tie branch is never entered, so
tie-breaking is never invoked) and for every behaviour of the random
oracle. -/
theorem minority_unique_aux (counts : List (String × Nat))
    (hkeys : (counts.map Prod.fst).Nodup)
    (choice : List String → String) (tb : Option TieBreakingParam)
    (g₀ : String) (m : Nat) (h₀ : (g₀, m) ∈ counts)
    (huniq : ∀ p ∈ counts, p ≠ (g₀, m) → m < p.2) :
    protectedGroup choice (.strategy .minority) tb counts = .ok g₀ := by
  have hperm := List.mergeSort_perm counts (fun x y => decide (x.2 ≤ y.2))
  have hpairb := @List.sorted_mergeSort (String × Nat)
    (fun x y => decide (x.2 ≤ y.2))
    (by intro a b c hab hbc; simp only [decide_eq_true_eq] at *; omega)
    (by intro a b; simp only [Bool.or_eq_true, decide_eq_true_eq]; omega) counts
  have hpair : (counts.mergeSort (fun x y => decide (x.2 ≤ y.2))).Pairwise
      (fun a b => a.2 ≤ b.2) := hpairb.imp (fun h => of_decide_eq_true h)
  have hnd : (counts.mergeSort (fun x y => decide (x.2 ≤ y.2))).Nodup :=
    hperm.nodup_iff.mpr (List.Nodup.of_map _ hkeys)
  have h₀S : (g₀, m) ∈ counts.mergeSort (fun x y => decide (x.2 ≤ y.2)) :=
    hperm.mem_iff.mpr h₀
  cases hS : counts.mergeSort (fun x y => decide (x.2 ≤ y.2)) with
  | nil =>
    rw [hS] at h₀S
    exact absurd h₀S (List.not_mem_nil _)
  | cons s₀ tail =>
    rw [hS] at h₀S hpair hnd
    have hs₀ : s₀ = (g₀, m) := by
      by_contra hc
      have hs₀counts : s₀ ∈ counts := hperm.subset (hS ▸ List.mem_cons_self _ _)
      have hlt : m < s₀.2 := huniq s₀ hs₀counts hc
      rcases List.mem_cons.mp h₀S with h | h
      · exact hc h.symm
      · have hp := (List.pairwise_cons.mp hpair).1 _ h
        omega
    cases tail with
    | nil =>
      simp only [protectedGroup, sortedGroups]
      rw [hS, hs₀]
      simp only [selectFromSorted]
    | cons s₁ rest =>
      have hnotmem : (g₀, m) ∉ s₁ :: rest := by
        rw [hs₀] at hnd
        exact (List.nodup_cons.mp hnd).1
      have hs₁ne : s₁ ≠ (g₀, m) := fun hc =>
        hnotmem (hc ▸ List.mem_cons_self _ _)
      have hs₁counts : s₁ ∈ counts := hperm.subset (hS ▸ (by simp))
      have hlt : m < s₁.2 := huniq s₁ hs₁counts hs₁ne
      simp only [protectedGroup, sortedGroups]
      rw [hS]
      simp only [selectFromSorted]
      rw [if_neg (by rw [hs₀]; simp only []; omega)]
      rw [hs₀]

/-- Claim C5 (confirmed): for every group-count mapping (with distinct
group keys, as a Python dict guarantees), (a) under MINORITY, if two
distinct groups share the minimal count and no tie-breaking is
configured, selection fails with the configuration `ValueError` carrying
exactly the groups whose count is the shared minimum together with that
count; (b) the same under MAJORITY for a shared maximal count; and
(c) if the minimum is unique, MINORITY selection deterministically
returns the minimal group — for every tie-breaking parameter and every
behaviour of the `random.choice` oracle, i.e. tie-breaking is never
invoked. -/
theorem claim_c5 (counts : List (String × Nat))
    (hkeys : (counts.map Prod.fst).Nodup) :
    (∀ (choice : List String → String) (g₁ g₂ : String) (m : Nat),
      (g₁, m) ∈ counts → (g₂, m) ∈ counts → g₁ ≠ g₂ →
      (∀ p ∈ counts, m ≤ p.2) →
      ∃ tg, protectedGroup choice (.strategy .minority) none counts =
          .error (.tie tg m) ∧ ∀ g, g ∈ tg ↔ (g, m) ∈ counts) ∧
    (∀ (choice : List String → String) (g₁ g₂ : String) (m : Nat),
      (g₁, m) ∈ counts → (g₂, m) ∈ counts → g₁ ≠ g₂ →
      (∀ p ∈ counts, p.2 ≤ m) →
      ∃ tg, protectedGroup choice (.strategy .majority) none counts =
          .error (.tie tg m) ∧ ∀ g, g ∈ tg ↔ (g, m) ∈ counts) ∧
    (∀ (choice : List String → String) (tb : Option TieBreakingParam)
      (g₀ : String) (m : Nat), (g₀, m) ∈ counts →
      (∀ p ∈ counts, p ≠ (g₀, m) → m < p.2) →
      protectedGroup choice (.strategy .minority) tb counts = .ok g₀) :=
  ⟨fun choice g₁ g₂ m h₁ h₂ hne hmin =>
      minority_tie_aux counts choice g₁ g₂ m h₁ h₂ hne hmin,
    fun choice g₁ g₂ m h₁ h₂ hne hmax =>
      majority_tie_aux counts choice g₁ g₂ m h₁ h₂ hne hmax,
    fun choice tb g₀ m h₀ huniq =>
      minority_unique_aux counts hkeys choice tb g₀ m h₀ huniq⟩

/-- Witness: claim C5 part (c) on the mapping `{A: 2, B: 1}` (unique
minimum `B`), with an arbitrary oracle and no tie-breaking: selection
returns `B`. -/
theorem claim_c5_witness :
    protectedGroup (fun _ => "") (.strategy .minority) none
      [("A", 2), ("B", 1)] = .ok "B" :=
  (claim_c5 [("A", 2), ("B", 1)] (by decide)).2.2 (fun _ => "") none "B" 1
    (by decide) (by decide)
/-- The synthetic score stamp `withScores l n` writes score `n - i` into
position `i`, all other fields untouched. -/
theorem withScores_eq_mapIdx (l : List RunDoc) :
    ∀ n, withScores l n =
      l.mapIdx (fun i d => { d with score := ((n - i : Nat) : ℚ) }) := by
  induction l with
  | nil => intro n; rfl
  | cons d ds ih =>
    intro n
    rw [List.mapIdx_cons]
    show { d with score := ((n : ℕ) : ℚ) } :: withScores ds (n - 1) = _
    rw [ih (n - 1)]
    congr 1
    congr 1
    funext i d₂
    rw [Nat.sub_sub, Nat.add_comm]

/-- Claim C8 (confirmed): `BalancedStanceReranker` with `k = 0` returns,
for every per-query ranking, exactly the input documents in the input
order, with only the score field rewritten to the strictly descending
synthetic sequence `n, n-1, ..., 1` (`min(0, len) = 0` makes both window
counts `0`, so the swap loop exits immediately and only the score reset
runs). -/
theorem claim_c8 (r : List RunDoc) :
    balancedRerank 0 r =
      r.mapIdx (fun i d => { d with score := ((r.length - i : Nat) : ℚ) }) := by
  have hloop : balancedLoop (min 0 r.length) (r.length * r.length + 1) r =
      (r, false) := by
    rw [Nat.zero_min]
    show balancedLoop 0 (r.length * r.length + 1) r = (r, false)
    simp only [balancedLoop]
    norm_num [imbalance, countProA, countProB]
  simp only [balancedRerank, hloop]
  exact withScores_eq_mapIdx r r.length

-- C10 development
/-- Folding `min` never exceeds the initial accumulator. -/
theorem foldl_min_le_init : ∀ (l : List ℚ) (a : ℚ), l.foldl min a ≤ a := by
  intro l
  induction l with
  | nil => intro a; exact le_refl a
  | cons x xs ih =>
    intro a
    exact le_trans (ih (min a x)) (min_le_left a x)

/-- Folding `min` never exceeds any list element. -/
theorem foldl_min_le_mem : ∀ (l : List ℚ) (a : ℚ) (x : ℚ), x ∈ l →
    l.foldl min a ≤ x := by
  intro l
  induction l with
  | nil => intro a x hx; exact absurd hx (List.not_mem_nil x)
  | cons y ys ih =>
    intro a x hx
    rw [List.foldl_cons]
    rcases List.mem_cons.mp hx with h | h
    · subst h
      exact le_trans (foldl_min_le_init ys (min a x)) (min_le_right a x)
    · exact ih (min a y) x h

/-- A `min` fold returns the accumulator or some list element. -/
theorem foldl_min_mem_or : ∀ (l : List ℚ) (a : ℚ),
    l.foldl min a = a ∨ l.foldl min a ∈ l := by
  intro l
  induction l with
  | nil => intro a; exact Or.inl rfl
  | cons y ys ih =>
    intro a
    rw [List.foldl_cons]
    rcases ih (min a y) with h | h
    · rcases min_choice a y with hc | hc
      · exact Or.inl (by rw [h, hc])
      · exact Or.inr (by rw [h, hc]; exact List.mem_cons_self _ _)
    · exact Or.inr (List.mem_cons_of_mem _ h)

/-- Folding `max` dominates the initial accumulator. -/
theorem foldl_max_init_le : ∀ (l : List ℚ) (a : ℚ), a ≤ l.foldl max a := by
  intro l
  induction l with
  | nil => intro a; exact le_refl a
  | cons x xs ih =>
    intro a
    exact le_trans (le_max_left a x) (ih (max a x))

/-- Folding `max` dominates every list element. -/
theorem foldl_max_mem_le : ∀ (l : List ℚ) (a : ℚ) (x : ℚ), x ∈ l →
    x ≤ l.foldl max a := by
  intro l
  induction l with
  | nil => intro a x hx; exact absurd hx (List.not_mem_nil x)
  | cons y ys ih =>
    intro a x hx
    rw [List.foldl_cons]
    rcases List.mem_cons.mp hx with h | h
    · subst h
      exact le_trans (le_max_right a x) (foldl_max_init_le ys (max a x))
    · exact ih (max a y) x h

/-- A `max` fold returns the accumulator or some list element. -/
theorem foldl_max_mem_or : ∀ (l : List ℚ) (a : ℚ),
    l.foldl max a = a ∨ l.foldl max a ∈ l := by
  intro l
  induction l with
  | nil => intro a; exact Or.inl rfl
  | cons y ys ih =>
    intro a
    rw [List.foldl_cons]
    rcases ih (max a y) with h | h
    · rcases max_choice a y with hc | hc
      · exact Or.inl (by rw [h, hc])
      · exact Or.inr (by rw [h, hc]; exact List.mem_cons_self _ _)
    · exact Or.inr (List.mem_cons_of_mem _ h)

/-- `Series.min()` is a lower bound of the column. -/
theorem minScore_le (scores : List ℚ) (s : ℚ) (hs : s ∈ scores) :
    minScore scores ≤ s := by
  cases scores with
  | nil => exact absurd hs (List.not_mem_nil s)
  | cons a l =>
    show l.foldl min a ≤ s
    rcases List.mem_cons.mp hs with h | h
    · subst h
      exact foldl_min_le_init l s
    · exact foldl_min_le_mem l a s h

/-- `Series.max()` is an upper bound of the column. -/
theorem le_maxScore (scores : List ℚ) (s : ℚ) (hs : s ∈ scores) :
    s ≤ maxScore scores := by
  cases scores with
  | nil => exact absurd hs (List.not_mem_nil s)
  | cons a l =>
    show s ≤ l.foldl max a
    rcases List.mem_cons.mp hs with h | h
    · subst h
      exact foldl_max_init_le l s
    · exact foldl_max_mem_le l a s h

/-- `Series.min()` of a nonempty column is attained. -/
theorem minScore_mem (scores : List ℚ) (hne : scores ≠ []) :
    minScore scores ∈ scores := by
  cases scores with
  | nil => exact absurd rfl hne
  | cons a l =>
    show l.foldl min a ∈ a :: l
    rcases foldl_min_mem_or l a with h | h
    · rw [h]
      exact List.mem_cons_self _ _
    · exact List.mem_cons_of_mem _ h

/-- `Series.max()` of a nonempty column is attained. -/
theorem maxScore_mem (scores : List ℚ) (hne : scores ≠ []) :
    maxScore scores ∈ scores := by
  cases scores with
  | nil => exact absurd rfl hne
  | cons a l =>
    show l.foldl max a ∈ a :: l
    rcases foldl_max_mem_or l a with h | h
    · rw [h]
      exact List.mem_cons_self _ _
    · exact List.mem_cons_of_mem _ h

/-- Claim C10 (confirmed): for every nonempty per-query ranking, if all
documents share the same score then the min-max normalization used by
`InverseStanceGainReranker` divides by `max - min = 0` (modeled as `none`:
in Python floats the rows become `0/0 = NaN`, not well-defined scores in
`[0, 1]`); and whenever two scores differ — the precondition under which
the division is safe — normalization succeeds with every output score in
`[0, 1]`. -/
theorem claim_c10 (r : List RunDoc) (hne : r ≠ []) :
    ((∀ d₁ ∈ r, ∀ d₂ ∈ r, d₁.score = d₂.score) → normalizeScores r = none) ∧
    ((∃ d₁ ∈ r, ∃ d₂ ∈ r, d₁.score ≠ d₂.score) →
      ∃ out, normalizeScores r = some out ∧
        ∀ d ∈ out, 0 ≤ d.score ∧ d.score ≤ 1) := by
  have hmapne : r.map RunDoc.score ≠ [] := by
    simpa using hne
  constructor
  · intro hall
    obtain ⟨d₁, hd₁, he₁⟩ := List.mem_map.mp (minScore_mem _ hmapne)
    obtain ⟨d₂, hd₂, he₂⟩ := List.mem_map.mp (maxScore_mem _ hmapne)
    have heq : maxScore (r.map RunDoc.score) - minScore (r.map RunDoc.score) = 0 := by
      rw [← he₁, ← he₂, hall d₂ hd₂ d₁ hd₁, sub_self]
    simp only [normalizeScores]
    rw [if_pos heq]
  · rintro ⟨d₁, hd₁, d₂, hd₂, hne₂⟩
    have h₁mn := minScore_le (r.map RunDoc.score) d₁.score
      (List.mem_map_of_mem _ hd₁)
    have h₂mn := minScore_le (r.map RunDoc.score) d₂.score
      (List.mem_map_of_mem _ hd₂)
    have h₁mx := le_maxScore (r.map RunDoc.score) d₁.score
      (List.mem_map_of_mem _ hd₁)
    have h₂mx := le_maxScore (r.map RunDoc.score) d₂.score
      (List.mem_map_of_mem _ hd₂)
    have hlt : minScore (r.map RunDoc.score) < maxScore (r.map RunDoc.score) := by
      rcases lt_or_le (minScore (r.map RunDoc.score))
          (maxScore (r.map RunDoc.score)) with h | h
      · exact h
      · exact absurd (le_antisymm (le_trans h₁mx (le_trans h h₂mn))
          (le_trans h₂mx (le_trans h h₁mn))) hne₂
    have hden : maxScore (r.map RunDoc.score) - minScore (r.map RunDoc.score) ≠ 0 :=
      sub_ne_zero_of_ne (ne_of_gt hlt)
    refine ⟨r.map (fun d => { d with score :=
        (d.score - minScore (r.map RunDoc.score)) /
        (maxScore (r.map RunDoc.score) - minScore (r.map RunDoc.score)) }),
      ?_, ?_⟩
    · simp only [normalizeScores]
      rw [if_neg hden]
    · intro d hd
      obtain ⟨d₀, hd₀, rfl⟩ := List.mem_map.mp hd
      have hmn := minScore_le (r.map RunDoc.score) d₀.score
        (List.mem_map_of_mem _ hd₀)
      have hmx := le_maxScore (r.map RunDoc.score) d₀.score
        (List.mem_map_of_mem _ hd₀)
      constructor
      · exact div_nonneg (sub_nonneg.mpr hmn) (le_of_lt (sub_pos.mpr hlt))
      · rw [div_le_one (sub_pos.mpr hlt)]
        linarith

/-- Witness: claim C10 applied to the two-document ranking with scores
`[1, 3]`. -/
theorem claim_c10_witness :
    ((∀ d₁ ∈ exScores, ∀ d₂ ∈ exScores, d₁.score = d₂.score) →
      normalizeScores exScores = none) ∧
    ((∃ d₁ ∈ exScores, ∃ d₂ ∈ exScores, d₁.score ≠ d₂.score) →
      ∃ out, normalizeScores exScores = some out ∧
        ∀ d ∈ out, 0 ≤ d.score ∧ d.score ≤ 1) :=
  claim_c10 exScores (by decide)

/-- Claim C7 (the intent is right, the code raises):
`BoostMinorityStanceReranker._rerank_query` raises
`TypeError: get() takes no keyword arguments` on every per-query ranking —
in particular on the spec's example with labels `[FIRST, FIRST, SECOND,
NO]` and `boost = 2` — because line 227 calls
`stance_counts.get(stance, default=0)`, so no document's score is ever
boosted. -/
theorem claim_c7 :
    (∀ (boost : ℚ) (r : List RunDoc),
      boostMinorityCode boost r = Except.error PyError.typeError) ∧
    boostMinorityCode 2 exStances = Except.error PyError.typeError :=
  ⟨fun _ _ => rfl, rfl⟩
/-- A `lastIdxWhere` hit is in bounds and satisfies the predicate. -/
theorem lastIdxWhere_spec (p : α → Bool) : ∀ (l : List α) (i : Nat),
    lastIdxWhere p l = some i → ∃ h : i < l.length, p (l.get ⟨i, h⟩) := by
  intro l
  induction l with
  | nil => intro i h; simp [lastIdxWhere] at h
  | cons x xs ih =>
    intro i h
    simp only [lastIdxWhere] at h
    cases hh : lastIdxWhere p xs with
    | some j =>
      rw [hh] at h
      injection h with h
      subst h
      obtain ⟨hj, hpj⟩ := ih j hh
      exact ⟨by simpa using Nat.succ_lt_succ hj, hpj⟩
    | none =>
      rw [hh] at h
      by_cases hp : p x
      · rw [if_pos hp] at h
        injection h with h
        subst h
        exact ⟨by simp, hp⟩
      · rw [if_neg hp] at h
        cases h

/-- A `firstIdxWhere` hit is in bounds and satisfies the predicate. -/
theorem firstIdxWhere_spec (p : α → Bool) : ∀ (l : List α) (i : Nat),
    firstIdxWhere p l = some i → ∃ h : i < l.length, p (l.get ⟨i, h⟩) := by
  intro l
  induction l with
  | nil => intro i h; simp [firstIdxWhere] at h
  | cons x xs ih =>
    intro i h
    simp only [firstIdxWhere] at h
    by_cases hp : p x
    · rw [if_pos hp] at h
      injection h with h
      subst h
      exact ⟨by simp, hp⟩
    · rw [if_neg hp] at h
      cases hh : firstIdxWhere p xs with
      | some j =>
        rw [hh] at h
        injection (show some (j + 1) = some i from h) with h
        subst h
        obtain ⟨hj, hpj⟩ := ih j hh
        exact ⟨by simpa using Nat.succ_lt_succ hj, hpj⟩
      | none =>
        rw [hh] at h
        cases h

/-- The top-`k` window after a move `i → j` with `i < k ≤ j`: the window
keeps positions `0..i-1`, loses the moved row at `i`, and pulls positions
`i+1..k` down by one — in particular the row formerly at position `k`
enters the window. -/
theorem moveElem_take_k (r : List RunDoc) (i j k : Nat)
    (hik : i < k) (hkj : k ≤ j) (hj : j < r.length) :
    (moveElem i j r).take k = r.take i ++ (r.drop (i + 1)).take (k - i) := by
  have hi : i < r.length := by omega
  have hlen₁ : (r.take i).length = i := by
    rw [List.length_take]
    omega
  have hlen₂ : ((r.drop (i + 1)).take (j - i)).length = j - i := by
    rw [List.length_take, List.length_drop]
    omega
  rw [moveElem, List.append_assoc, List.append_assoc,
    List.take_append_eq_append_take, List.take_take, hlen₁,
    List.take_append_eq_append_take, List.take_take, hlen₂]
  rw [show min k i = i from by omega,
    show min (k - i) (j - i) = k - i from by omega,
    show k - i - (j - i) = 0 from by omega, List.take_zero, List.append_nil]

/-- One-step unfolding of a slice: `r[i:].take (n+1) = r[i] :: r[i+1:].take n`. -/
theorem drop_take_one (r : List RunDoc) (i n : Nat) (hi : i < r.length) :
    (r.drop i).take (n + 1) = r[i] :: (r.drop (i + 1)).take n := by
  rw [← List.getElem_cons_drop r i hi, List.take_succ_cons]

/-- Window-count bookkeeping of a move `i → j` with `i < k ≤ j`: for any
predicate, the new window count plus the moved row's contribution equals
the old window count plus the contribution of the row formerly at
position `k` (the row that enters the window). -/
theorem countP_moveElem_take (p : RunDoc → Bool) (r : List RunDoc)
    (i j k : Nat) (hik : i < k) (hkj : k ≤ j) (hj : j < r.length)
    (hi : i < r.length) (hk : k < r.length) :
    ((moveElem i j r).take k).countP p + (if p r[i] then 1 else 0) =
      (r.take k).countP p + (if p r[k] then 1 else 0) := by
  have hsplit : r.take k =
      r.take i ++ r[i] :: (r.drop (i + 1)).take (k - i - 1) := by
    rw [show k = i + (k - i) from by omega, List.take_add,
      show i + (k - i) - i = k - i from by omega,
      show k - i = (k - i - 1) + 1 from by omega, drop_take_one r i _ hi,
      Nat.add_sub_cancel]
  have hwin : (r.drop (i + 1)).take (k - i) =
      (r.drop (i + 1)).take (k - i - 1) ++ [r[k]] := by
    rw [show k - i = (k - i - 1) + 1 from by omega, List.take_add,
      List.drop_drop, show i + 1 + (k - i - 1) = k from by omega,
      drop_take_one r k 0 hk, List.take_zero, Nat.add_sub_cancel]
  rw [moveElem_take_k r i j k hik hkj hj, hwin, hsplit]
  rw [← List.append_assoc, List.countP_append, List.countP_append,
    List.countP_append, List.countP_cons]
  simp only [List.countP_cons, List.countP_nil]
  omega

/-- A move never removes or duplicates documents: the reordered list is a
permutation of the original. -/
theorem moveElem_perm (r : List RunDoc) (i j : Nat)
    (hij : i ≤ j) (hj : j < r.length) :
    (moveElem i j r).Perm r := by
  have hi : i < r.length := by omega
  have hdecomp : r =
      r.take i ++ ((r.drop i).take 1 ++ ((r.drop (i + 1)).take (j - i) ++
        r.drop (j + 1))) := by
    conv_lhs => rw [← List.take_append_drop i r]
    congr 1
    rw [drop_take_one r i 0 hi, List.take_zero]
    show r.drop i = r[i] :: ((r.drop (i + 1)).take (j - i) ++ r.drop (j + 1))
    rw [← List.getElem_cons_drop r i hi]
    congr 1
    conv_lhs => rw [← List.take_append_drop (j - i) (r.drop (i + 1))]
    rw [List.drop_drop, show i + 1 + (j - i) = j + 1 from by omega]
  rw [moveElem, List.append_assoc, List.append_assoc]
  conv_rhs => rw [hdecomp]
  apply List.Perm.append_left
  rw [← List.append_assoc, ← List.append_assoc]
  apply List.Perm.append_right
  exact List.perm_append_comm

/-- A pro-A stance is not pro-B. -/
theorem stancePos_not_neg (s : Option ℚ) (h : stancePos s = true) :
    stanceNeg s = false := by
  cases s with
  | none => rfl
  | some v =>
    simp only [stancePos, decide_eq_true_eq] at h
    simp only [stanceNeg, decide_eq_false_iff_not]
    linarith

/-- A pro-B stance is not pro-A. -/
theorem stanceNeg_not_pos (s : Option ℚ) (h : stanceNeg s = true) :
    stancePos s = false := by
  cases s with
  | none => rfl
  | some v =>
    simp only [stanceNeg, decide_eq_true_eq] at h
    simp only [stancePos, decide_eq_false_iff_not]
    linarith

/-- Claim C2 (amended): each iteration of `BalancedStanceReranker`'s
corrective-swap loop that performs a swap (returns a new list rather than
returning early) preserves the multiset of documents and never increases
the top-`k` polarity imbalance, reducing it by at most 2; exactly, the
change is determined by the document that slides into the window (the one
formerly at position `k`): against a pro-A-heavy window the imbalance
drops by exactly 2 when that document is pro-B (the under-represented
polarity), stays unchanged when it is pro-A, and drops by exactly 1 when
it is neutral or unlabeled — mirrored against a pro-B-heavy window. -/
theorem claim_c2_amended (k : Nat) (r r₂ : List RunDoc)
    (hk : 1 ≤ k) (hkr : k ≤ r.length)
    (himb : 1 < imbalance k r)
    (hstep : balancedStep k r = some r₂) :
    ∃ hkw : k < r.length,
      r₂.Perm r ∧
      imbalance k r₂ ≤ imbalance k r ∧
      imbalance k r ≤ imbalance k r₂ + 2 ∧
      (countProB k r < countProA k r →
        (stanceNeg (r.get ⟨k, hkw⟩).stance = true →
          imbalance k r₂ + 2 = imbalance k r) ∧
        (stancePos (r.get ⟨k, hkw⟩).stance = true →
          imbalance k r₂ = imbalance k r) ∧
        (stancePos (r.get ⟨k, hkw⟩).stance = false →
          stanceNeg (r.get ⟨k, hkw⟩).stance = false →
          imbalance k r₂ + 1 = imbalance k r)) ∧
      (countProA k r < countProB k r →
        (stancePos (r.get ⟨k, hkw⟩).stance = true →
          imbalance k r₂ + 2 = imbalance k r) ∧
        (stanceNeg (r.get ⟨k, hkw⟩).stance = true →
          imbalance k r₂ = imbalance k r) ∧
        (stancePos (r.get ⟨k, hkw⟩).stance = false →
          stanceNeg (r.get ⟨k, hkw⟩).stance = false →
          imbalance k r₂ + 1 = imbalance k r)) := by
  simp only [balancedStep] at hstep
  by_cases hab : countProB k r < countProA k r
  · rw [if_pos hab] at hstep
    cases hia : lastIdxWhere (fun d => stancePos d.stance) (r.take (k - 1)) with
    | none =>
      rw [hia] at hstep
      cases hj : firstIdxWhere (fun d => stanceNeg d.stance) (r.drop k) with
      | none => rw [hj] at hstep; cases hstep
      | some j => rw [hj] at hstep; cases hstep
    | some ia =>
      rw [hia] at hstep
      cases hj : firstIdxWhere (fun d => stanceNeg d.stance) (r.drop k) with
      | none => rw [hj] at hstep; cases hstep
      | some j =>
        rw [hj] at hstep
        injection hstep with hstep
        subst hstep
        obtain ⟨hia_lt, hia_p⟩ := lastIdxWhere_spec _ _ _ hia
        rw [List.length_take] at hia_lt
        obtain ⟨hj_lt, hj_p⟩ := firstIdxWhere_spec _ _ _ hj
        rw [List.length_drop] at hj_lt
        have hialt : ia < k - 1 := lt_of_lt_of_le hia_lt (min_le_left _ _)
        have hiar : ia < r.length := by omega
        have hkj : k + j < r.length := by omega
        rw [List.get_eq_getElem, List.getElem_take] at hia_p
        rw [List.get_eq_getElem, List.getElem_drop] at hj_p
        have hperm := moveElem_perm r ia (k + j) (by omega) (by omega)
        have hkr2 : k < r.length := by omega
        have hA := countP_moveElem_take (fun d => stancePos d.stance) r ia
          (k + j) k (by omega) (by omega) (by omega) (by omega) hkr2
        have hB := countP_moveElem_take (fun d => stanceNeg d.stance) r ia
          (k + j) k (by omega) (by omega) (by omega) (by omega) hkr2
        have hxa : stancePos (r[ia]).stance = true := hia_p
        have hxb : stanceNeg (r[ia]).stance = false :=
          stancePos_not_neg _ hxa
        refine ⟨hkr2, hperm, ?_⟩
        simp only [List.get_eq_getElem]
        simp only [imbalance, countProA, countProB]
        simp only [countProA, countProB, imbalance] at hab himb
        cases hAk : stancePos (r[k]).stance with
        | true =>
          have hBk := stancePos_not_neg _ hAk
          simp only [hxa, hxb, hAk, hBk, eq_self_iff_true, if_true,
            Bool.false_eq_true, if_false] at hA hB
          refine ⟨by omega, by omega, ?_, fun hba => absurd hba (by omega)⟩
          refine fun _ => ⟨?_, fun _ => by omega, ?_⟩
          · intro hc
            rw [hBk] at hc
            cases hc
          · intro hposf _
            cases hposf
        | false =>
          cases hBk : stanceNeg (r[k]).stance with
          | true =>
            simp only [hxa, hxb, hAk, hBk, eq_self_iff_true, if_true,
              Bool.false_eq_true, if_false] at hA hB
            refine ⟨by omega, by omega, ?_, fun hba => absurd hba (by omega)⟩
            refine fun _ => ⟨fun _ => by omega, ?_, ?_⟩
            · intro hc
              cases hc
            · intro _ hc
              cases hc
          | false =>
            simp only [hxa, hxb, hAk, hBk, eq_self_iff_true, if_true,
              Bool.false_eq_true, if_false] at hA hB
            refine ⟨by omega, by omega, ?_, fun hba => absurd hba (by omega)⟩
            refine fun _ => ⟨?_, ?_, fun _ _ => by omega⟩
            · intro hc
              cases hc
            · intro hc
              cases hc
  · rw [if_neg hab] at hstep
    cases hib : lastIdxWhere (fun d => stanceNeg d.stance) (r.take (k - 1)) with
    | none =>
      rw [hib] at hstep
      cases hj : firstIdxWhere (fun d => stancePos d.stance) (r.drop k) with
      | none => rw [hj] at hstep; cases hstep
      | some j => rw [hj] at hstep; cases hstep
    | some ib =>
      rw [hib] at hstep
      cases hj : firstIdxWhere (fun d => stancePos d.stance) (r.drop k) with
      | none => rw [hj] at hstep; cases hstep
      | some j =>
        rw [hj] at hstep
        injection hstep with hstep
        subst hstep
        obtain ⟨hib_lt, hib_p⟩ := lastIdxWhere_spec _ _ _ hib
        rw [List.length_take] at hib_lt
        obtain ⟨hj_lt, hj_p⟩ := firstIdxWhere_spec _ _ _ hj
        rw [List.length_drop] at hj_lt
        have hiblt : ib < k - 1 := lt_of_lt_of_le hib_lt (min_le_left _ _)
        have hibr : ib < r.length := by omega
        have hkj : k + j < r.length := by omega
        rw [List.get_eq_getElem, List.getElem_take] at hib_p
        rw [List.get_eq_getElem, List.getElem_drop] at hj_p
        have hperm := moveElem_perm r ib (k + j) (by omega) (by omega)
        have hkr2 : k < r.length := by omega
        have hA := countP_moveElem_take (fun d => stancePos d.stance) r ib
          (k + j) k (by omega) (by omega) (by omega) (by omega) hkr2
        have hB := countP_moveElem_take (fun d => stanceNeg d.stance) r ib
          (k + j) k (by omega) (by omega) (by omega) (by omega) hkr2
        have hxb : stanceNeg (r[ib]).stance = true := hib_p
        have hxa : stancePos (r[ib]).stance = false :=
          stanceNeg_not_pos _ hxb
        refine ⟨hkr2, hperm, ?_⟩
        simp only [List.get_eq_getElem]
        simp only [imbalance, countProA, countProB]
        simp only [countProA, countProB, imbalance] at hab himb
        cases hAk : stancePos (r[k]).stance with
        | true =>
          have hBk := stancePos_not_neg _ hAk
          simp only [hxa, hxb, hAk, hBk, eq_self_iff_true, if_true,
            Bool.false_eq_true, if_false] at hA hB
          refine ⟨by omega, by omega, fun hba => absurd hba (by omega), ?_⟩
          refine fun _ => ⟨fun _ => by omega, ?_, ?_⟩
          · intro hc
            rw [hBk] at hc
            cases hc
          · intro hposf _
            cases hposf
        | false =>
          cases hBk : stanceNeg (r[k]).stance with
          | true =>
            simp only [hxa, hxb, hAk, hBk, eq_self_iff_true, if_true,
              Bool.false_eq_true, if_false] at hA hB
            refine ⟨by omega, by omega, fun hba => absurd hba (by omega), ?_⟩
            refine fun _ => ⟨?_, fun _ => by omega, ?_⟩
            · intro hc
              cases hc
            · intro _ hc
              cases hc
          | false =>
            simp only [hxa, hxb, hAk, hBk, eq_self_iff_true, if_true,
              Bool.false_eq_true, if_false] at hA hB
            refine ⟨by omega, by omega, fun hba => absurd hba (by omega), ?_⟩
            refine fun _ => ⟨?_, ?_, fun _ _ => by omega⟩
            · intro hc
              cases hc
            · intro hc
              cases hc

/-- Claim C2, counterexample: for `k = 3` on the ranking with stances
`[1, 1, 1, 1, -1]`, the loop body performs a swap (the last in-head pro-A
row, position 1, moves behind the first tail pro-B row, position 4), yet
the top-3 imbalance stays `3` instead of dropping by exactly 2, because
the row sliding into the window (position 3) is itself pro-A. -/
theorem claim_c2_counterexample :
    1 ≤ 3 ∧ 3 ≤ exBalanced.length ∧ 1 < imbalance 3 exBalanced ∧
    balancedStep 3 exBalanced = some (moveElem 1 4 exBalanced) ∧
    imbalance 3 (moveElem 1 4 exBalanced) = 3 ∧
    imbalance 3 exBalanced = 3 := by decide

/-- Witness: the amended C2 theorem applied to `[A, A, B]` with `k = 2`,
where the swap `balancedStep 2 = some (moveElem 0 2 ...)` occurs; the
entering document (position 2) is pro-B, the under-represented polarity,
so the imbalance drops by exactly 2 (from 2 to 0), and the documents are
permuted. -/
theorem claim_c2_witness :
    ∃ hkw : 2 < exBalanced₂.length,
      (moveElem 0 2 exBalanced₂).Perm exBalanced₂ ∧
      imbalance 2 (moveElem 0 2 exBalanced₂) ≤ imbalance 2 exBalanced₂ ∧
      imbalance 2 exBalanced₂ ≤ imbalance 2 (moveElem 0 2 exBalanced₂) + 2 ∧
      (countProB 2 exBalanced₂ < countProA 2 exBalanced₂ →
        (stanceNeg (exBalanced₂.get ⟨2, hkw⟩).stance = true →
          imbalance 2 (moveElem 0 2 exBalanced₂) + 2 = imbalance 2 exBalanced₂) ∧
        (stancePos (exBalanced₂.get ⟨2, hkw⟩).stance = true →
          imbalance 2 (moveElem 0 2 exBalanced₂) = imbalance 2 exBalanced₂) ∧
        (stancePos (exBalanced₂.get ⟨2, hkw⟩).stance = false →
          stanceNeg (exBalanced₂.get ⟨2, hkw⟩).stance = false →
          imbalance 2 (moveElem 0 2 exBalanced₂) + 1 = imbalance 2 exBalanced₂)) ∧
      (countProA 2 exBalanced₂ < countProB 2 exBalanced₂ →
        (stancePos (exBalanced₂.get ⟨2, hkw⟩).stance = true →
          imbalance 2 (moveElem 0 2 exBalanced₂) + 2 = imbalance 2 exBalanced₂) ∧
        (stanceNeg (exBalanced₂.get ⟨2, hkw⟩).stance = true →
          imbalance 2 (moveElem 0 2 exBalanced₂) = imbalance 2 exBalanced₂) ∧
        (stancePos (exBalanced₂.get ⟨2, hkw⟩).stance = false →
          stanceNeg (exBalanced₂.get ⟨2, hkw⟩).stance = false →
          imbalance 2 (moveElem 0 2 exBalanced₂) + 1 = imbalance 2 exBalanced₂)) :=
  claim_c2_amended 2 exBalanced₂ (moveElem 0 2 exBalanced₂) (by decide)
    (by decide) (by decide) (by decide)

/-- A pro-A stance is not a pro-B-or-neutral candidate. -/
theorem pos_not_le0 (s : Option ℚ) (h : stancePos s = true) :
    stanceLe0 s = false := by
  cases s with
  | none => rfl
  | some v =>
    simp only [stancePos, decide_eq_true_eq] at h
    simp only [stanceLe0, decide_eq_false_iff_not]
    linarith

/-- A pro-B stance is not a pro-A-or-neutral candidate. -/
theorem neg_not_ge0 (s : Option ℚ) (h : stanceNeg s = true) :
    stanceGe0 s = false := by
  cases s with
  | none => rfl
  | some v =>
    simp only [stanceNeg, decide_eq_true_eq] at h
    simp only [stanceGe0, decide_eq_false_iff_not]
    linarith

/-- A pro-B last stance is not pro-A (for the candidate-filter branches). -/
theorem opt_neg_not_pos (s : Option ℚ) (h : stanceNeg s = true) :
    stancePos s = false := by
  cases s with
  | none => rfl
  | some v =>
    simp only [stanceNeg, decide_eq_true_eq] at h
    simp only [stancePos, decide_eq_false_iff_not]
    linarith

/-- A successful `extractFirst` returns an element satisfying the
predicate, and removing it permutes the list. -/
theorem extractFirst_some (p : α → Bool) : ∀ (l : List α) (c : α)
    (rest : List α), extractFirst p l = some (c, rest) →
    p c = true ∧ l.Perm (c :: rest) := by
  intro l
  induction l with
  | nil => intro c rest h; cases h
  | cons x xs ih =>
    intro c rest h
    simp only [extractFirst] at h
    by_cases hp : p x
    · rw [if_pos hp] at h
      injection h with h
      obtain ⟨rfl, rfl⟩ := Prod.mk.injEq x xs c rest |>.mp h
      exact ⟨hp, List.Perm.refl _⟩
    · rw [if_neg hp] at h
      cases hext : extractFirst p xs with
      | none => rw [hext] at h; cases h
      | some pr =>
        obtain ⟨d, rest₂⟩ := pr
        rw [hext] at h
        injection h with h
        obtain ⟨rfl, rfl⟩ := Prod.mk.injEq d (x :: rest₂) c rest |>.mp h
        obtain ⟨hpd, hperm⟩ := ih d rest₂ hext
        exact ⟨hpd, (hperm.cons x).trans (List.Perm.swap d x rest₂)⟩

/-- A failed `extractFirst` means no element satisfies the predicate. -/
theorem extractFirst_none (p : α → Bool) : ∀ (l : List α),
    extractFirst p l = none → ∀ x ∈ l, p x = false := by
  intro l
  induction l with
  | nil => intro _ x hx; exact absurd hx (List.not_mem_nil x)
  | cons y ys ih =>
    intro h x hx
    simp only [extractFirst] at h
    by_cases hp : p y
    · rw [if_pos hp] at h; cases h
    · rw [if_neg hp] at h
      rcases List.mem_cons.mp hx with hxy | hxy
      · subst hxy
        exact Bool.eq_false_iff.mpr hp
      · cases hext : extractFirst p ys with
        | none => exact ih hext x hxy
        | some pr => rw [hext] at h; cases h

/-- Extension step for the alternation guarantee: prepending the selected
document `c` preserves `noSameSignRun`, given that the recursive output
permutes the remaining pool and that its head is constrained by the
selection made with `last = c.stance`. -/
theorem noSameSignRun_cons (c : RunDoc) (tail pool₂ : List RunDoc)
    (hperm : tail.Perm pool₂)
    (hhead : ∀ c₂ t₂, tail = c₂ :: t₂ →
      (stancePos c.stance = true → stancePos c₂.stance = true →
        ∀ d ∈ pool₂, stanceLe0 d.stance = false) ∧
      (stanceNeg c.stance = true → stanceNeg c₂.stance = true →
        ∀ d ∈ pool₂, stanceGe0 d.stance = false))
    (htail : noSameSignRun tail) : noSameSignRun (c :: tail) := by
  intro pre c₁ c₂ post heq
  cases pre with
  | nil =>
    simp only [List.nil_append] at heq
    injection heq with h₁ h₂
    subst h₁
    constructor
    · intro hp1 hp2 d hd
      exact (hhead c₂ post h₂).1 hp1 hp2 d (hperm.subset (h₂ ▸ hd))
    · intro hn1 hn2 d hd
      exact (hhead c₂ post h₂).2 hn1 hn2 d (hperm.subset (h₂ ▸ hd))
  | cons x pre₂ =>
    simp only [List.cons_append] at heq
    injection heq with h₁ h₂
    exact htail pre₂ c₁ c₂ post h₂

/-- Invariant of the alternating selection loop: the output permutes the
pool; the first output document, when it shares the sign of `last`,
certifies that no opposite-or-neutral candidate existed in the pool; and
the output as a whole satisfies the alternation guarantee. -/
theorem alternate_invariant : ∀ (fuel : Nat) (last : Option ℚ)
    (pool : List RunDoc), pool.length ≤ fuel →
    (alternate fuel last pool).Perm pool ∧
    (∀ c out₂, alternate fuel last pool = c :: out₂ →
      (stancePos last = true → stancePos c.stance = true →
        ∀ d ∈ pool, stanceLe0 d.stance = false) ∧
      (stanceNeg last = true → stanceNeg c.stance = true →
        ∀ d ∈ pool, stanceGe0 d.stance = false)) ∧
    noSameSignRun (alternate fuel last pool) := by
  intro fuel
  induction fuel with
  | zero =>
    intro last pool hlen
    have hpool : pool = [] := List.length_eq_zero.mp (Nat.le_zero.mp hlen)
    subst hpool
    refine ⟨List.Perm.refl _, ?_, ?_⟩
    · intro c out₂ h
      cases h
    · intro pre c₁ c₂ post h
      exact absurd (show pre ++ c₁ :: c₂ :: post = ([] : List RunDoc)
        from h.symm) (by simp)
  | succ fuel ih =>
    intro last pool hlen
    cases pool with
    | nil =>
      refine ⟨List.Perm.refl _, ?_, ?_⟩
      · intro c out₂ h
        cases h
      · intro pre c₁ c₂ post h
        exact absurd (show pre ++ c₁ :: c₂ :: post = ([] : List RunDoc)
          from h.symm) (by simp)
    | cons p₀ rest =>
      rw [show alternate (fuel + 1) last (p₀ :: rest) =
        (match extractFirst (altCandidate last) (p₀ :: rest) with
          | some (c, pool₂) => c :: alternate fuel c.stance pool₂
          | none => p₀ :: alternate fuel p₀.stance rest) from rfl]
      cases hext : extractFirst (altCandidate last) (p₀ :: rest) with
      | some cp =>
        obtain ⟨c, pool₂⟩ := cp
        obtain ⟨hpc, hpermE⟩ := extractFirst_some _ _ _ _ hext
        have hlen₂ : pool₂.length ≤ fuel := by
          have hle := hpermE.length_eq
          simp only [List.length_cons] at hle hlen
          omega
        obtain ⟨ih1, ih2, ih3⟩ := ih c.stance pool₂ hlen₂
        refine ⟨?_, ?_, ?_⟩
        · exact (ih1.cons c).trans hpermE.symm
        · intro c₀ out₂ hco
          injection hco with hc₀ hout₂
          subst hc₀
          constructor
          · intro hlastPos hcPos
            rw [altCandidate, if_pos hlastPos] at hpc
            exact absurd hpc (by rw [pos_not_le0 _ hcPos]; simp)
          · intro hlastNeg hcNeg
            rw [altCandidate,
              if_neg (by rw [opt_neg_not_pos _ hlastNeg]; simp),
              if_pos hlastNeg] at hpc
            exact absurd hpc (by rw [neg_not_ge0 _ hcNeg]; simp)
        · exact noSameSignRun_cons c _ pool₂ ih1 (fun c₂ t₂ ht => ih2 c₂ t₂ ht) ih3
      | none =>
        have hall := extractFirst_none _ _ hext
        have hlen₂ : rest.length ≤ fuel := by
          simp only [List.length_cons] at hlen
          omega
        obtain ⟨ih1, ih2, ih3⟩ := ih p₀.stance rest hlen₂
        refine ⟨?_, ?_, ?_⟩
        · exact ih1.cons p₀
        · intro c₀ out₂ hco
          injection hco with hc₀ hout₂
          subst hc₀
          constructor
          · intro hlastPos _ d hd
            have hcand := hall d hd
            rw [altCandidate, if_pos hlastPos] at hcand
            exact hcand
          · intro hlastNeg _ d hd
            have hcand := hall d hd
            rw [altCandidate,
              if_neg (by rw [opt_neg_not_pos _ hlastNeg]; simp),
              if_pos hlastNeg] at hcand
            exact hcand
        · exact noSameSignRun_cons p₀ _ rest ih1
            (fun c₂ t₂ ht => ih2 c₂ t₂ ht) ih3

/-- The score reset does not change any document's stance. -/
theorem mem_withScores : ∀ (l : List RunDoc) (n : Nat) (d : RunDoc),
    d ∈ withScores l n → ∃ d₀ ∈ l, d.stance = d₀.stance := by
  intro l
  induction l with
  | nil => intro n d hd; cases hd
  | cons x xs ih =>
    intro n d hd
    simp only [withScores] at hd
    rcases List.mem_cons.mp hd with h | h
    · exact ⟨x, List.mem_cons_self _ _, by rw [h]⟩
    · obtain ⟨d₀, hd₀, hs⟩ := ih (n - 1) d h
      exact ⟨d₀, List.mem_cons_of_mem _ hd₀, hs⟩

/-- A split of a score-reset list pulls back to a split of the original
list with the same stances position by position. -/
theorem withScores_split : ∀ (pre : List RunDoc) (r : List RunDoc) (n : Nat)
    (c₁ c₂ : RunDoc) (post : List RunDoc),
    withScores r n = pre ++ c₁ :: c₂ :: post →
    ∃ (pre₀ : List RunDoc) (d₁ d₂ : RunDoc) (post₀ : List RunDoc) (m : Nat),
      r = pre₀ ++ d₁ :: d₂ :: post₀ ∧ c₁.stance = d₁.stance ∧
      c₂.stance = d₂.stance ∧ c₂ :: post = withScores (d₂ :: post₀) m := by
  intro pre
  induction pre with
  | nil =>
    intro r n c₁ c₂ post h
    cases r with
    | nil => cases h
    | cons d₁ r₁ =>
      simp only [withScores, List.nil_append] at h
      injection h with h₁ h₂
      cases r₁ with
      | nil => cases h₂
      | cons d₂ r₂ =>
        simp only [withScores] at h₂
        injection h₂ with h₃ h₄
        refine ⟨[], d₁, d₂, r₂, n - 1, rfl, by rw [← h₁], by rw [← h₃], ?_⟩
        simp only [withScores]
        rw [h₃, h₄]
  | cons x pre₂ ih =>
    intro r n c₁ c₂ post h
    cases r with
    | nil => cases h
    | cons d₁ r₁ =>
      simp only [withScores, List.cons_append] at h
      injection h with h₁ h₂
      obtain ⟨pre₀, e₁, e₂, post₀, m, hr, hs₁, hs₂, hpost⟩ :=
        ih r₁ (n - 1) c₁ c₂ post h₂
      exact ⟨d₁ :: pre₀, e₁, e₂, post₀, m, by rw [List.cons_append, ← hr],
        hs₁, hs₂, hpost⟩

/-- The alternation guarantee survives the synthetic score reset. -/
theorem noSameSignRun_withScores (r : List RunDoc) (n : Nat)
    (h : noSameSignRun r) : noSameSignRun (withScores r n) := by
  intro pre c₁ c₂ post heq
  obtain ⟨pre₀, d₁, d₂, post₀, m, hr, hs₁, hs₂, hpost⟩ :=
    withScores_split pre r n c₁ c₂ post heq
  obtain ⟨hp, hn⟩ := h pre₀ d₁ d₂ post₀ hr
  constructor
  · intro h1 h2 d hd
    rw [hs₁] at h1
    rw [hs₂] at h2
    rw [hpost] at hd
    obtain ⟨d₀, hd₀, hsd⟩ := mem_withScores _ _ _ hd
    rw [hsd]
    exact hp h1 h2 d₀ hd₀
  · intro h1 h2 d hd
    rw [hs₁] at h1
    rw [hs₂] at h2
    rw [hpost] at hd
    obtain ⟨d₀, hd₀, hsd⟩ := mem_withScores _ _ _ hd
    rw [hsd]
    exact hn h1 h2 d₀ hd₀

/-- Claim C6 (confirmed): the output of `AlternatingStanceReranker` never
contains two consecutive documents of the same stance sign at a position
where, when the second one was selected, a candidate of the opposite sign
or neutral stance was still available in the pool. Stated via
`noSameSignRun`: whenever consecutive output documents `c₁, c₂` share a
sign, every document from `c₂` onward — exactly the remaining pool at the
moment `c₂` was selected, since each step removes only the emitted
document — fails the opposite-or-neutral test. -/
theorem claim_c6 (pool : List RunDoc) :
    noSameSignRun (alternatingRerank pool) := by
  rw [alternatingRerank, resetScores]
  exact noSameSignRun_withScores _ _
    (alternate_invariant pool.length none pool (le_refl _)).2.2

/-- Witness: claim C6 applied to the two-document pro-A pool `exAlt`,
whose output is split as `[] ++ a1 :: a2 :: []`; both are pro-A, and the
theorem yields that the pool remainder (here `a2` itself) was no
opposite-or-neutral candidate. -/
theorem claim_c6_witness :
    stanceLe0 ((⟨"a2", (1 : ℚ), some 1, none⟩ : RunDoc)).stance = false :=
  ((claim_c6 exAlt) [] ⟨"a1", 2, some 1, none⟩ ⟨"a2", 1, some 1, none⟩ []
    (by decide)).1 (by decide) (by decide) _ (List.mem_cons_self _ _)
